import Mathlib

/-!
Verification of the go-access-cache repository (package `accesscache`).

The development shallowly embeds `accesscache/accesscache.go`:

* Go's reflected values are modelled by the inductive type `Value`; the
  reflection-based size estimator `sizeof` / `sizeofInternal` is transcribed
  over it.  Type sizes (`reflect.Type.Size`) follow the 64-bit layout the
  repository's own tests assume (`stringSize = 16`, `sliceSize = 24`,
  8-byte words); struct padding is ignored, as the test structs have none.
* The cache itself (`AccessCache`) stores Go maps as association lists with
  unique keys; `uint64` quantities are modelled as `Nat` (no operation in the
  source can overflow them on the states the invariants describe), `float64`
  latencies as `ℚ`, and wall-clock durations are passed in explicitly as the
  `elapsedSec` argument of `Get`/`Set` (the value `time.Since` would return).
* Fatal `panic`s (zero capacity in `NewAccessCache`, the 1000-level recursion
  guard in `sizeofInternal`) are modelled by `Option`: `none` is a panic.
-/

/-- Go reflection kinds and types, as far as the estimator inspects them:
`reflect.Type.Kind`, `reflect.Type.Size`, `reflect.Type.Elem`/`Key`. -/
inductive GoType where
  | int | int8 | int16 | int32 | int64
  | uint | uint8 | uint16 | uint32 | uint64
  | float32 | float64 | complex64 | complex128
  | bool
  | string
  | ptr (elem : GoType)
  | structT (fields : List GoType)
  | array (n : Nat) (elem : GoType)
  | slice (elem : GoType)
  | mapT (key elem : GoType)

/-- `isNativeType` from the source: true exactly for the numeric kinds
Int..Uint64, Float32, Float64, Complex64, Complex128 (note: not Bool,
not String). -/
def isNativeType (k : GoType) : Bool :=
  match k with
  | .int | .int8 | .int16 | .int32 | .int64
  | .uint | .uint8 | .uint16 | .uint32 | .uint64
  | .float32 | .float64 | .complex64 | .complex128 => true
  | _ => false

/-- `uint64(reflect.TypeOf(reflect.SliceHeader{}).Size())` on a 64-bit
platform: three 8-byte words. -/
def sliceSize : Nat := 24

/-- `uint64(reflect.TypeOf(reflect.StringHeader{}).Size())` on a 64-bit
platform: two 8-byte words. -/
def stringSize : Nat := 16

mutual
/-- `reflect.Type.Size` on a 64-bit platform (struct alignment padding is
not modelled; the repository's tests use structs without padding). -/
def typeSize : GoType → Nat
  | .int => 8 | .int8 => 1 | .int16 => 2 | .int32 => 4 | .int64 => 8
  | .uint => 8 | .uint8 => 1 | .uint16 => 2 | .uint32 => 4 | .uint64 => 8
  | .float32 => 4 | .float64 => 8 | .complex64 => 8 | .complex128 => 16
  | .bool => 1
  | .string => stringSize
  | .ptr _ => 8
  | .structT fs => typeSizeL fs
  | .array n t => n * typeSize t
  | .slice _ => sliceSize
  | .mapT _ _ => 8
/-- Sum of the sizes of a struct's field types. -/
def typeSizeL : List GoType → Nat
  | [] => 0
  | t :: ts => typeSize t + typeSizeL ts
end

/-- A Go value as the estimator observes it through `reflect.Value`:
its kind, the data `val.Len`/`val.IsNil`/fields/elements expose, and the
element types that `typ.Elem()`/`typ.Key()` return (also needed for empty
collections). `scalar t` covers every kind the `switch` in `sizeofInternal`
has no case for (numbers, bool, ...): only its type size matters. -/
inductive Value where
  | scalar (t : GoType)
  | str (s : String)
  | ptrNil (elem : GoType)
  | ptrTo (v : Value)
  | structV (fields : List Value)
  | arrayV (elemT : GoType) (elems : List Value)
  | sliceV (elemT : GoType) (elems : List Value)
  | mapNil (keyT elemT : GoType)
  | mapV (keyT elemT : GoType) (entries : List (Value × Value))

mutual
/-- `val.Type().Size()` for a `Value`: the size of the value's dynamic type. -/
def Value.tsize : Value → Nat
  | .scalar t => typeSize t
  | .str _ => stringSize
  | .ptrNil _ => 8
  | .ptrTo _ => 8
  | .structV fs => Value.tsizeL fs
  | .arrayV t es => es.length * typeSize t
  | .sliceV _ _ => sliceSize
  | .mapNil _ _ => 8
  | .mapV _ _ _ => 8
/-- Sum of the dynamic type sizes of a struct's field values. -/
def Value.tsizeL : List Value → Nat
  | [] => 0
  | v :: vs => Value.tsize v + Value.tsizeL vs
end

mutual
/-- `sizeofInternal` from the source.  `none` models the
`panic("sizeOf recursed more than 1000 times.")` fired by the depth guard
(`if depth++; depth > 1000`); every other path returns `some` of the byte
estimate.  Recursive calls receive the incremented depth, exactly as in Go. -/
def sizeofInternal (v : Value) (fromStruct : Bool) (depth : Nat) : Option Nat :=
  if 1000 < depth + 1 then none
  else
    let sz := if fromStruct then 0 else v.tsize
    match v with
    | .scalar _ => some sz
    | .str s => some (sz + s.length)
    | .ptrNil _ => some sz
    | .ptrTo w =>
      match sizeofInternal w false (depth + 1) with
      | none => none
      | some s => some (sz + s)
    | .structV fs => sumFields fs (depth + 1) sz
    | .arrayV t es =>
      if isNativeType t then some sz
      else sumElems es (depth + 1) 0
    | .sliceV t es =>
      let sz2 := if fromStruct then sz else sliceSize
      if isNativeType t then some (sz2 + es.length * typeSize t)
      else sumElems es (depth + 1) sz2
    | .mapNil _ _ => some sz
    | .mapV kt vt ps =>
      if isNativeType kt && isNativeType vt then
        some (sz + (typeSize kt + typeSize vt) * ps.length)
      else sumPairs ps (depth + 1) sz
/-- The `for` loop over struct fields: `sz += sizeofInternal(field, true, depth)`,
with `none` (panic) propagating. -/
def sumFields : List Value → Nat → Nat → Option Nat
  | [], _, acc => some acc
  | f :: fs, depth, acc =>
    match sizeofInternal f true depth with
    | none => none
    | some s => sumFields fs depth (acc + s)
/-- The `for` loop over array/slice elements:
`sz += sizeofInternal(elem, false, depth)`. -/
def sumElems : List Value → Nat → Nat → Option Nat
  | [], _, acc => some acc
  | e :: es, depth, acc =>
    match sizeofInternal e false depth with
    | none => none
    | some s => sumElems es depth (acc + s)
/-- The `for` loop over map keys:
`sz += sizeofInternal(key, false, depth) + sizeofInternal(value, false, depth)`. -/
def sumPairs : List (Value × Value) → Nat → Nat → Option Nat
  | [], _, acc => some acc
  | (a, b) :: ps, depth, acc =>
    match sizeofInternal a false depth with
    | none => none
    | some s1 =>
      match sizeofInternal b false depth with
      | none => none
      | some s2 => sumPairs ps depth (acc + (s1 + s2))
end

/-- `sizeof(objs ...interface{})` from the source: sums the estimates of the
given values, each started at depth 0 outside any struct. -/
def sizeof : List Value → Option Nat
  | [] => some 0
  | o :: os =>
    match sizeofInternal o false 0 with
    | none => none
    | some s =>
      match sizeof os with
      | none => none
      | some r => some (s + r)

/- Sanity checks against the repository's own test file (`TestSizeOf`):
sizeof("") = 16, sizeof("a") = 17, sizeof("abc") = 19, sizeof(1024) = 8,
sizeof(teststruct{}) = 24, sizeof(teststruct{name: "test", age: 6}) = 28. -/
example : sizeof [.str ""] = some 16 := rfl
example : sizeof [.str "a"] = some 17 := rfl
example : sizeof [.str "abc"] = some 19 := rfl
example : sizeof [.scalar .int] = some 8 := rfl
example : sizeof [.structV [.str "", .scalar .int]] = some 24 := rfl
example : sizeof [.structV [.str "test", .scalar .int]] = some 28 := rfl

/-! ## Association lists: the model of Go's `map[string]V` -/

/-- Go map lookup `m[k]`: the value bound to `k`, if any. -/
def alookup {α : Type} : List (String × α) → String → Option α
  | [], _ => none
  | p :: rest, k => if p.1 = k then some p.2 else alookup rest k

/-- Go map deletion `delete(m, k)`: drop every binding of `k`
(with unique keys, the one binding). -/
def aerase {α : Type} : List (String × α) → String → List (String × α)
  | [], _ => []
  | p :: rest, k => if p.1 = k then aerase rest k else p :: aerase rest k

/-- Go map update `m[k] = v`: overwrite the binding of `k`. -/
def ainsert {α : Type} (l : List (String × α)) (k : String) (v : α) :
    List (String × α) :=
  aerase l k ++ [(k, v)]

/-- The key multiset of an association list. -/
def keysOf {α : Type} (l : List (String × α)) : List String :=
  l.map Prod.fst

/-- The `GetCacheSize` summation, on raw maps: iterate over the keys of
`cache`, adding `sizes[k]` for each (a missing entry contributes Go's zero
value 0). -/
def mapsSize (cache : List (String × Value)) (sizes : List (String × Nat)) : Nat :=
  (cache.map (fun p => (alookup sizes p.1).getD 0)).sum

/-! ## The cache -/

/-- The `AccessCache` struct.  The `sync.Mutex` field is not modelled: every
operation holds the single lock for its whole body, so the lock's only effect
is to serialise operations, and the model works on the serialised states. -/
structure AccessCache where
  cache : List (String × Value)
  lastviewed : List String
  maxsize : Nat
  verbose : Bool
  avgGet : ℚ
  avgSet : ℚ
  ctrGet : ℤ
  ctrSet : ℤ
  sizes : List (String × Nat)

namespace AccessCache

/-- `NewAccessCache`: `none` models `panic("Size in bytes must be greater 0")`
(for the unsigned `size`, `size <= 0` means `size = 0`). -/
def NewAccessCache (size : Nat) : Option AccessCache :=
  if size ≤ 0 then none
  else some
    { cache := [], sizes := [], lastviewed := [], maxsize := size,
      verbose := false, avgGet := 0, avgSet := 0, ctrGet := 0, ctrSet := 0 }

/-- `indexOfLastViewed`: index of the first occurrence of `element`, -1 if
absent. -/
def indexOfLastViewed (lv : List String) (element : String) : Int :=
  match lv with
  | [] => -1
  | v :: rest =>
    if element = v then 0
    else
      let r := indexOfLastViewed rest element
      if r = -1 then -1 else r + 1

/-- `removeLastViewedAtIndex`: `append(lv[:index], lv[index+1:]...)`. -/
def removeLastViewedAtIndex (lv : List String) (index : Nat) : List String :=
  lv.eraseIdx index

/-- `appendLastViewed`: remove the key's occurrence, if any, then append the
key at the tail. -/
def appendLastViewed (lv : List String) (key : String) : List String :=
  let i := indexOfLastViewed lv key
  (if i > -1 then removeLastViewedAtIndex lv i.toNat else lv) ++ [key]

/-- `GetCacheSize`: current cache size in bytes, recomputed by summation. -/
def GetCacheSize (c : AccessCache) : Nat :=
  mapsSize c.cache c.sizes

/-- The `for GetCacheSize() > maxsize` loop of `clearOutdatedItems`, carried
out on the three structures: while over budget, delete the head of the
recency order from both maps and from the order; stop if the order empties.
(When the order is empty the loop body returns with all three structures
unchanged, whether or not the size check would have passed.) -/
def clearOutdatedLoop (maxsize : Nat) :
    List String → List (String × Value) → List (String × Nat) →
    List String × List (String × Value) × List (String × Nat)
  | [], cache, sizes => ([], cache, sizes)
  | k :: rest, cache, sizes =>
    if maxsize < mapsSize cache sizes then
      clearOutdatedLoop maxsize rest (aerase cache k) (aerase sizes k)
    else (k :: rest, cache, sizes)

/-- `clearOutdatedItems`: evict least-recently-used entries until the
aggregate size is within budget.  (The `verbose` log line has no state
effect and is not modelled.) -/
def clearOutdatedItems (c : AccessCache) : AccessCache :=
  let r := clearOutdatedLoop c.maxsize c.lastviewed c.cache c.sizes
  { c with lastviewed := r.1, cache := r.2.1, sizes := r.2.2 }

/-- `calcAvg`: rolling average over `float64` samples (modelled in `ℚ`);
`newValue` is in seconds, scaled by 1000 to milliseconds. -/
def calcAvg (currAvg : ℚ) (currCtr : ℤ) (newValue : ℚ) : ℚ :=
  let val := newValue * 1000
  (currAvg * (currCtr : ℚ) + val) / ((currCtr : ℚ) + 1)

/-- `Get`: look the key up; on a hit promote it to most-recently-used; update
the Get latency average either way.  Returns Go's `(value, ok)` pair (the
zero `interface{}` of a miss is `none`) together with the post-state. -/
def Get (c : AccessCache) (key : String) (elapsedSec : ℚ) :
    Option Value × Bool × AccessCache :=
  let value := alookup c.cache key
  let ok := value.isSome
  let c1 := if ok then { c with lastviewed := appendLastViewed c.lastviewed key } else c
  let c2 := { c1 with avgGet := calcAvg c1.avgGet c1.ctrGet elapsedSec,
                      ctrGet := c1.ctrGet + 1 }
  (value, ok, c2)

/-- The error message `Set` returns on the capacity check. -/
def capacityError : String :=
  "Cannot add elements larger than the maximum cache size"

/-- `Set`: estimate the value's size; reject if it is at least the cache
maximum (returning before any state change, including the latency-average
update); otherwise promote, store value and size, evict, and update the Set
latency average.  The outer `none` models a `sizeof` panic; the inner
`Option String` is the returned `error`. -/
def Set (c : AccessCache) (key : String) (v : Value) (elapsedSec : ℚ) :
    Option (AccessCache × Option String) :=
  match sizeof [v] with
  | none => none
  | some size =>
    if c.maxsize ≤ size then some (c, some capacityError)
    else
      let c1 := { c with lastviewed := appendLastViewed c.lastviewed key }
      let c2 := { c1 with cache := ainsert c1.cache key v,
                          sizes := ainsert c1.sizes key size }
      let c3 := clearOutdatedItems c2
      let c4 := { c3 with avgSet := calcAvg c3.avgSet c3.ctrSet elapsedSec,
                          ctrSet := c3.ctrSet + 1 }
      some (c4, none)

/-- `GetItemSizes`: the size table. -/
def GetItemSizes (c : AccessCache) : List (String × Nat) :=
  c.sizes

/-- `Count`: number of cached items (length of the recency order). -/
def Count (c : AccessCache) : Nat :=
  c.lastviewed.length

/-- `GetAverageDurationForGet`. -/
def GetAverageDurationForGet (c : AccessCache) : ℚ :=
  c.avgGet

/-- `GetAverageDurationForSet`. -/
def GetAverageDurationForSet (c : AccessCache) : ℚ :=
  c.avgSet

/-- `GetLastViewedKey`: the tail of the recency order, or `""` when empty. -/
def GetLastViewedKey (c : AccessCache) : String :=
  match c.lastviewed.getLast? with
  | none => ""
  | some k => k

/-- The cache-state invariant of the specification's data model: the keys of
`cache` and of `sizes` are (as multisets) exactly the recency order, the
recency order has no duplicates, and the aggregate size is within budget. -/
def Wf (c : AccessCache) : Prop :=
  c.lastviewed.Nodup ∧
  (keysOf c.cache).Perm c.lastviewed ∧
  (keysOf c.sizes).Perm c.lastviewed ∧
  GetCacheSize c ≤ c.maxsize

end AccessCache

/-! ## Sanity checks of the cache against the specification's example -/

/-- Chain a `Set` of an 8-byte `int`, keeping only the cache state
(durations 0), for writing concrete scenarios. -/
def setInt (c : Option AccessCache) (k : String) : Option AccessCache :=
  c.bind (fun c => (c.Set k (.scalar .int) 0).map Prod.fst)

/-- Chain a `Get`, keeping only the cache state. -/
def getK (c : Option AccessCache) (k : String) : Option AccessCache :=
  c.map (fun c => (c.Get k 0).2.2)

example :
    ((((AccessCache.NewAccessCache 40 |> setInt) "a" |> setInt) "b" |> setInt) "c").map
      AccessCache.lastviewed = some ["a", "b", "c"] := rfl

example :
    (getK ((((AccessCache.NewAccessCache 40 |> setInt) "a" |> setInt) "b" |> setInt) "c") "a").map
      AccessCache.lastviewed = some ["b", "c", "a"] := rfl

example :
    (((setInt (setInt (getK ((((AccessCache.NewAccessCache 40 |> setInt) "a" |> setInt) "b"
        |> setInt) "c") "a") "d") "e" |> setInt) "f")).map
      (fun c => (c.lastviewed, c.GetCacheSize, c.GetLastViewedKey)) =
      some (["c", "a", "d", "e", "f"], 40, "f") := rfl

/-! ## Association-list lemmas -/

theorem keysOf_append {α : Type} (l₁ l₂ : List (String × α)) :
    keysOf (l₁ ++ l₂) = keysOf l₁ ++ keysOf l₂ :=
  List.map_append _ _ _

theorem keysOf_aerase {α : Type} (l : List (String × α)) (k : String) :
    keysOf (aerase l k) = (keysOf l).filter (fun x => x != k) := by
  induction l with
  | nil => rfl
  | cons p rest ih =>
    simp only [keysOf, aerase, List.map_cons, List.filter_cons] at ih ⊢
    by_cases h : p.1 = k
    · simpa [h] using ih
    · simpa [h, bne_iff_ne] using ih

theorem alookup_aerase {α : Type} (l : List (String × α)) (k k' : String) :
    alookup (aerase l k) k' = if k' = k then none else alookup l k' := by
  induction l with
  | nil => simp [aerase, alookup]
  | cons p rest ih =>
    simp only [aerase]
    by_cases h : p.1 = k
    · rw [if_pos h, ih]
      by_cases h' : k' = k
      · simp [h']
      · have hp : ¬ p.1 = k' := by
          rw [h]; exact fun e => h' e.symm
        simp [h', alookup, hp]
    · rw [if_neg h]
      by_cases h2 : p.1 = k'
      · have hk : ¬ k' = k := fun e => h (h2.trans e)
        simp [alookup, h2, hk]
      · simp [alookup, h2, ih]

theorem alookup_append {α : Type} (l₁ l₂ : List (String × α)) (k : String) :
    alookup (l₁ ++ l₂) k =
      match alookup l₁ k with
      | some v => some v
      | none => alookup l₂ k := by
  induction l₁ with
  | nil => simp [alookup]
  | cons p rest ih =>
    by_cases h : p.1 = k
    · simp [alookup, h]
    · simp [alookup, h, ih]

theorem alookup_ainsert {α : Type} (l : List (String × α)) (k k' : String) (v : α) :
    alookup (ainsert l k v) k' = if k' = k then some v else alookup l k' := by
  unfold ainsert
  rw [alookup_append, alookup_aerase]
  by_cases h : k' = k
  · simp [alookup, h]
  · simp only [if_neg h, alookup, if_neg (fun e : k = k' => h e.symm)]
    cases alookup l k' <;> rfl

theorem alookup_mem_keysOf {α : Type} {l : List (String × α)} {k : String} {v : α}
    (h : alookup l k = some v) : k ∈ keysOf l := by
  induction l with
  | nil => simp [alookup] at h
  | cons p rest ih =>
    simp only [keysOf, List.map_cons, List.mem_cons]
    by_cases hp : p.1 = k
    · exact Or.inl hp.symm
    · simp only [alookup, if_neg hp] at h
      exact Or.inr (ih h)

theorem alookup_eq_none_of_not_mem {α : Type} {l : List (String × α)} {k : String}
    (h : k ∉ keysOf l) : alookup l k = none := by
  induction l with
  | nil => rfl
  | cons p rest ih =>
    simp only [keysOf, List.map_cons, List.mem_cons] at h
    push_neg at h
    simp only [alookup, if_neg (fun e : p.1 = k => h.1 e.symm)]
    exact ih h.2

theorem keysOf_ainsert {α : Type} (l : List (String × α)) (k : String) (v : α) :
    keysOf (ainsert l k v) = (keysOf l).filter (fun x => x != k) ++ [k] := by
  unfold ainsert
  rw [keysOf_append, keysOf_aerase]
  rfl

theorem keysOf_eq_nil {α : Type} {l : List (String × α)} (h : keysOf l = []) :
    l = [] :=
  List.map_eq_nil_iff.mp h

/-! ## Recency-order lemmas -/

namespace AccessCache

theorem neg_one_le_indexOfLastViewed (lv : List String) (k : String) :
    -1 ≤ indexOfLastViewed lv k := by
  induction lv with
  | nil => simp [indexOfLastViewed]
  | cons v rest ih =>
    simp only [indexOfLastViewed]
    by_cases h : k = v
    · simp [h]
    · simp only [if_neg h]
      by_cases hr : indexOfLastViewed rest k = -1
      · simp [hr]
      · simp only [if_neg hr]
        omega

theorem indexOfLastViewed_eq_neg_one (lv : List String) (k : String) :
    indexOfLastViewed lv k = -1 ↔ k ∉ lv := by
  induction lv with
  | nil => simp [indexOfLastViewed]
  | cons v rest ih =>
    simp only [indexOfLastViewed, List.mem_cons]
    by_cases h : k = v
    · simp [h]
    · simp only [if_neg h]
      by_cases hr : indexOfLastViewed rest k = -1
      · simp [hr, h, ih.mp hr]
      · have := neg_one_le_indexOfLastViewed rest k
        constructor
        · intro he; omega
        · intro hne
          exact absurd (ih.mpr (fun hm => hne (Or.inr hm))) hr

theorem eraseIdx_indexOfLastViewed (lv : List String) (k : String) (h : k ∈ lv) :
    lv.eraseIdx (indexOfLastViewed lv k).toNat = lv.erase k := by
  induction lv with
  | nil => simp at h
  | cons v rest ih =>
    by_cases hv : k = v
    · subst hv
      simp [indexOfLastViewed]
    · have hr : k ∈ rest := by
        rcases List.mem_cons.mp h with h1 | h2
        · exact absurd h1 hv
        · exact h2
      have hne : indexOfLastViewed rest k ≠ -1 :=
        fun he => (indexOfLastViewed_eq_neg_one rest k).mp he hr
      have hge := neg_one_le_indexOfLastViewed rest k
      simp only [indexOfLastViewed, if_neg hv, if_neg hne]
      have htn : (indexOfLastViewed rest k + 1).toNat =
          (indexOfLastViewed rest k).toNat + 1 := by omega
      rw [htn, List.eraseIdx_cons_succ, ih hr,
        List.erase_cons_tail]
      simp [bne_iff_ne]
      exact fun e => hv e.symm

theorem appendLastViewed_eq (lv : List String) (k : String) :
    appendLastViewed lv k = lv.erase k ++ [k] := by
  unfold appendLastViewed removeLastViewedAtIndex
  by_cases h : k ∈ lv
  · have hne : indexOfLastViewed lv k ≠ -1 :=
      fun he => (indexOfLastViewed_eq_neg_one lv k).mp he h
    have hge := neg_one_le_indexOfLastViewed lv k
    have hpos : indexOfLastViewed lv k > -1 := by omega
    simp only [if_pos hpos]
    rw [eraseIdx_indexOfLastViewed lv k h]
  · have he : indexOfLastViewed lv k = -1 :=
      (indexOfLastViewed_eq_neg_one lv k).mpr h
    simp only [he]
    rw [List.erase_of_not_mem h]
    simp

theorem appendLastViewed_nodup {lv : List String} (k : String) (h : lv.Nodup) :
    (appendLastViewed lv k).Nodup := by
  rw [appendLastViewed_eq]
  rw [List.nodup_append]
  refine ⟨h.erase k, List.nodup_singleton k, ?_⟩
  intro a ha hb
  simp at hb
  subst hb
  exact ((List.Nodup.mem_erase_iff h).mp ha).1 rfl

theorem appendLastViewed_perm {lv : List String} {k : String} (h : k ∈ lv) :
    (appendLastViewed lv k).Perm lv := by
  rw [appendLastViewed_eq]
  exact (List.perm_append_singleton k (lv.erase k)).trans
    (List.perm_cons_erase h).symm

theorem getLastViewed_append (c : AccessCache) (l : List String) (k : String)
    (h : c.lastviewed = l ++ [k]) : GetLastViewedKey c = k := by
  unfold GetLastViewedKey
  rw [h, List.getLast?_concat]

end AccessCache

/-! ## Eviction-loop lemmas -/

/-- The key-set part of the data-model invariant, on the raw triple of
structures: no duplicate recency entries, and both maps' key multisets are
exactly the recency order. -/
def SyncT (lv : List String) (cache : List (String × Value))
    (sizes : List (String × Nat)) : Prop :=
  lv.Nodup ∧ (keysOf cache).Perm lv ∧ (keysOf sizes).Perm lv

theorem keysOf_eq_singleton {α : Type} {l : List (String × α)} {k : String}
    (h : keysOf l = [k]) : ∃ p : String × α, l = [p] ∧ p.1 = k := by
  cases l with
  | nil => simp [keysOf] at h
  | cons p rest =>
    simp only [keysOf, List.map_cons, List.cons.injEq] at h
    exact ⟨p, by rw [List.map_eq_nil_iff.mp h.2], h.1⟩

theorem perm_aerase {α : Type} {lv rest : List String} {k : String}
    {l : List (String × α)} (hperm : (keysOf l).Perm lv)
    (hlv : lv = k :: rest) (hnd : lv.Nodup) :
    (keysOf (aerase l k)).Perm rest := by
  subst hlv
  rw [keysOf_aerase]
  have h1 : ((keysOf l).filter (fun x => x != k)).Perm
      ((k :: rest).filter (fun x => x != k)) := hperm.filter _
  have hk : k ∉ rest := (List.nodup_cons.mp hnd).1
  have h2 : (k :: rest).filter (fun x => x != k) = rest := by
    rw [List.filter_cons]
    simp only [bne_self_eq_false, Bool.false_eq_true, if_false]
    exact List.filter_eq_self.mpr (fun a ha => by
      have : a ≠ k := fun e => hk (e ▸ ha)
      simpa [bne_iff_ne] using this)
  rwa [h2] at h1

theorem stepSync {k : String} {rest : List String}
    {cache : List (String × Value)} {sizes : List (String × Nat)}
    (h : SyncT (k :: rest) cache sizes) :
    SyncT rest (aerase cache k) (aerase sizes k) := by
  obtain ⟨hnd, hc, hs⟩ := h
  exact ⟨(List.nodup_cons.mp hnd).2, perm_aerase hc rfl hnd,
    perm_aerase hs rfl hnd⟩

namespace AccessCache

theorem clearOutdatedLoop_sync (ms : Nat) :
    ∀ (lv : List String) (cache : List (String × Value))
      (sizes : List (String × Nat)), SyncT lv cache sizes →
      SyncT (clearOutdatedLoop ms lv cache sizes).1
        (clearOutdatedLoop ms lv cache sizes).2.1
        (clearOutdatedLoop ms lv cache sizes).2.2 ∧
      mapsSize (clearOutdatedLoop ms lv cache sizes).2.1
        (clearOutdatedLoop ms lv cache sizes).2.2 ≤ ms := by
  intro lv
  induction lv with
  | nil =>
    intro cache sizes h
    have hc : cache = [] := keysOf_eq_nil (List.perm_nil.mp h.2.1)
    subst hc
    exact ⟨h, by simp [clearOutdatedLoop, mapsSize]⟩
  | cons k rest ih =>
    intro cache sizes h
    by_cases hg : ms < mapsSize cache sizes
    · simpa [clearOutdatedLoop, hg] using
        ih (aerase cache k) (aerase sizes k) (stepSync h)
    · simpa [clearOutdatedLoop, hg] using ⟨h, Nat.le_of_not_lt hg⟩

theorem clearOutdatedLoop_drop (ms : Nat) :
    ∀ (lv : List String) (cache : List (String × Value))
      (sizes : List (String × Nat)),
      ∃ n, n ≤ lv.length ∧ (clearOutdatedLoop ms lv cache sizes).1 = lv.drop n := by
  intro lv
  induction lv with
  | nil => intro cache sizes; exact ⟨0, by simp [clearOutdatedLoop]⟩
  | cons k rest ih =>
    intro cache sizes
    by_cases hg : ms < mapsSize cache sizes
    · obtain ⟨n, hn, he⟩ := ih (aerase cache k) (aerase sizes k)
      exact ⟨n + 1, by simpa using hn, by simpa [clearOutdatedLoop, hg] using he⟩
    · exact ⟨0, by simp [clearOutdatedLoop, hg]⟩

theorem clearOutdatedLoop_exit (ms : Nat) :
    ∀ (lv : List String) (cache : List (String × Value))
      (sizes : List (String × Nat)),
      mapsSize (clearOutdatedLoop ms lv cache sizes).2.1
        (clearOutdatedLoop ms lv cache sizes).2.2 ≤ ms ∨
      (clearOutdatedLoop ms lv cache sizes).1 = [] := by
  intro lv
  induction lv with
  | nil => intro cache sizes; exact Or.inr rfl
  | cons k rest ih =>
    intro cache sizes
    by_cases hg : ms < mapsSize cache sizes
    · simpa [clearOutdatedLoop, hg] using ih (aerase cache k) (aerase sizes k)
    · exact Or.inl (by simpa [clearOutdatedLoop, hg] using Nat.le_of_not_lt hg)

theorem clearOutdatedLoop_last (ms : Nat) :
    ∀ (l : List String) (k : String) (cache : List (String × Value))
      (sizes : List (String × Nat)) (s : Nat),
      SyncT (l ++ [k]) cache sizes →
      alookup sizes k = some s → s ≤ ms →
      (∃ l', (clearOutdatedLoop ms (l ++ [k]) cache sizes).1 = l' ++ [k]) ∧
      alookup (clearOutdatedLoop ms (l ++ [k]) cache sizes).2.1 k =
        alookup cache k ∧
      alookup (clearOutdatedLoop ms (l ++ [k]) cache sizes).2.2 k = some s := by
  intro l
  induction l with
  | nil =>
    intro k cache sizes s hsync hlk hle
    have hkeys : keysOf cache = [k] := List.perm_singleton.mp (by simpa using hsync.2.1)
    obtain ⟨p, hp, hpk⟩ := keysOf_eq_singleton hkeys
    have hms : mapsSize cache sizes = s := by
      subst hp; simp [mapsSize, hpk, hlk]
    have hg : ¬ ms < mapsSize cache sizes := by omega
    have hloop : clearOutdatedLoop ms [k] cache sizes = ([k], cache, sizes) := by
      simp [clearOutdatedLoop, hg]
    simp only [List.nil_append]
    rw [hloop]
    exact ⟨⟨[], rfl⟩, rfl, hlk⟩
  | cons h l₂ ih =>
    intro k cache sizes s hsync hlk hle
    by_cases hg : ms < mapsSize cache sizes
    · have hhk : h ≠ k := by
        have := hsync.1
        simp only [List.cons_append, List.nodup_cons] at this
        exact fun e => this.1 (by simp [e])
      have hstep : SyncT (l₂ ++ [k]) (aerase cache h) (aerase sizes h) := by
        have hsc : SyncT (h :: (l₂ ++ [k])) cache sizes := by simpa using hsync
        exact stepSync hsc
      have hlk2 : alookup (aerase sizes h) k = some s := by
        rw [alookup_aerase, if_neg (fun e : k = h => hhk e.symm)]
        exact hlk
      obtain ⟨⟨l', hl'⟩, hc, hs⟩ := ih k (aerase cache h) (aerase sizes h) s hstep hlk2 hle
      refine ⟨⟨l', ?_⟩, ?_, ?_⟩
      · simpa [clearOutdatedLoop, hg] using hl'
      · have : alookup (aerase cache h) k = alookup cache k := by
          rw [alookup_aerase, if_neg (fun e : k = h => hhk e.symm)]
        simpa [clearOutdatedLoop, hg, this] using hc
      · simpa [clearOutdatedLoop, hg] using hs
    · have hloop : clearOutdatedLoop ms (h :: (l₂ ++ [k])) cache sizes =
          (h :: (l₂ ++ [k]), cache, sizes) := by
        simp [clearOutdatedLoop, hg]
      simp only [List.cons_append]
      rw [hloop]
      exact ⟨⟨h :: l₂, rfl⟩, rfl, hlk⟩

end AccessCache

/-! ## Set and Get: shape and invariant preservation -/

namespace AccessCache

/-- The state a successful `Set` produces: promote, store value and size,
evict, update the Set latency average. -/
def setResult (c : AccessCache) (key : String) (v : Value) (s : Nat) (t : ℚ) :
    AccessCache :=
  let c2 := { c with lastviewed := appendLastViewed c.lastviewed key,
                     cache := ainsert c.cache key v,
                     sizes := ainsert c.sizes key s }
  let c3 := clearOutdatedItems c2
  { c3 with avgSet := calcAvg c3.avgSet c3.ctrSet t, ctrSet := c3.ctrSet + 1 }

theorem Set_eq_reject {c : AccessCache} {key : String} {v : Value} {t : ℚ} {s : Nat}
    (hs : sizeof [v] = some s) (hge : c.maxsize ≤ s) :
    Set c key v t = some (c, some capacityError) := by
  unfold Set
  rw [hs]
  simp [hge]

theorem Set_eq_some {c : AccessCache} {key : String} {v : Value} {t : ℚ} {s : Nat}
    (hs : sizeof [v] = some s) (hlt : s < c.maxsize) :
    Set c key v t = some (setResult c key v s t, none) := by
  unfold Set setResult
  rw [hs]
  simp only [if_neg (Nat.not_le_of_lt hlt)]

theorem Set_cases {c : AccessCache} {key : String} {v : Value} {t : ℚ}
    {c' : AccessCache} {e : Option String} (h : Set c key v t = some (c', e)) :
    (∃ s, sizeof [v] = some s ∧ c.maxsize ≤ s ∧ c' = c ∧ e = some capacityError) ∨
    (∃ s, sizeof [v] = some s ∧ s < c.maxsize ∧ e = none ∧
      c' = setResult c key v s t) := by
  rcases hs : sizeof [v] with _ | s
  · unfold Set at h; rw [hs] at h; exact absurd h (by simp)
  · by_cases hle : c.maxsize ≤ s
    · left
      rw [Set_eq_reject hs hle] at h
      have hp := Option.some.inj h
      exact ⟨s, rfl, hle, (congrArg Prod.fst hp).symm, (congrArg Prod.snd hp).symm⟩
    · right
      have hlt : s < c.maxsize := Nat.lt_of_not_le hle
      rw [Set_eq_some hs hlt] at h
      have hp := Option.some.inj h
      exact ⟨s, rfl, hlt, (congrArg Prod.snd hp).symm, (congrArg Prod.fst hp).symm⟩

theorem perm_ainsert {α : Type} {l : List (String × α)} {lv : List String}
    {key : String} {v : α} (hperm : (keysOf l).Perm lv) (hnd : lv.Nodup) :
    (keysOf (ainsert l key v)).Perm (appendLastViewed lv key) := by
  rw [keysOf_ainsert, appendLastViewed_eq, hnd.erase_eq_filter]
  exact (hperm.filter _).append_right [key]

theorem syncT_insert {c : AccessCache} (key : String) (v : Value) (s : Nat)
    (h : SyncT c.lastviewed c.cache c.sizes) :
    SyncT (appendLastViewed c.lastviewed key)
      (ainsert c.cache key v) (ainsert c.sizes key s) :=
  ⟨appendLastViewed_nodup key h.1, perm_ainsert h.2.1 h.1, perm_ainsert h.2.2 h.1⟩

theorem wf_syncT {c : AccessCache} (h : Wf c) : SyncT c.lastviewed c.cache c.sizes :=
  ⟨h.1, h.2.1, h.2.2.1⟩

theorem wf_setResult {c : AccessCache} {key : String} {v : Value} {s : Nat} {t : ℚ}
    (hwf : Wf c) : Wf (setResult c key v s t) := by
  have hsync := syncT_insert key v s (wf_syncT hwf)
  have hloop := clearOutdatedLoop_sync c.maxsize
    (appendLastViewed c.lastviewed key) (ainsert c.cache key v)
    (ainsert c.sizes key s) hsync
  exact ⟨hloop.1.1, hloop.1.2.1, hloop.1.2.2,
    by simpa [setResult, clearOutdatedItems, GetCacheSize] using hloop.2⟩

theorem wf_get {c : AccessCache} (key : String) (t : ℚ) (hwf : Wf c) :
    Wf (Get c key t).2.2 := by
  unfold Get
  rcases hl : alookup c.cache key with _ | v
  · simpa [hl, Wf, GetCacheSize] using hwf
  · have hmem : key ∈ c.lastviewed :=
      (hwf.2.1.mem_iff).mp (alookup_mem_keysOf hl)
    have hperm := appendLastViewed_perm hmem
    exact ⟨by simpa [hl] using (hperm.nodup_iff).mpr hwf.1,
      by simpa [hl] using hwf.2.1.trans hperm.symm,
      by simpa [hl] using hwf.2.2.1.trans hperm.symm,
      by simpa [hl, GetCacheSize] using hwf.2.2.2⟩

theorem clearOutdatedItems_eq_self {c : AccessCache}
    (h : clearOutdatedLoop c.maxsize c.lastviewed c.cache c.sizes =
      (c.lastviewed, c.cache, c.sizes)) :
    clearOutdatedItems c = c := by
  unfold clearOutdatedItems
  rw [h]

end AccessCache

/-! ## Concrete states used to instantiate the claim theorems -/

/-- A small well-formed cache: one 8-byte entry under key `"a"`, capacity 100. -/
def cW : AccessCache :=
  { cache := [("a", .scalar .int)], lastviewed := ["a"], maxsize := 100,
    verbose := false, avgGet := 0, avgSet := 0, ctrGet := 0, ctrSet := 0,
    sizes := [("a", 8)] }

/-- An empty cache with capacity 8 (so an 8-byte `int` is rejected). -/
def cM8 : AccessCache :=
  { cache := [], lastviewed := [], maxsize := 8,
    verbose := false, avgGet := 0, avgSet := 0, ctrGet := 0, ctrSet := 0,
    sizes := [] }

/-- An over-budget state (as `Set` produces just before eviction): two
5-byte entries against capacity 7. -/
def cOver : AccessCache :=
  { cache := [("a", .scalar .int), ("b", .scalar .int)],
    lastviewed := ["a", "b"], maxsize := 7,
    verbose := false, avgGet := 0, avgSet := 0, ctrGet := 0, ctrSet := 0,
    sizes := [("a", 5), ("b", 5)] }

/-! ## Claim theorems -/

/-- C1: the cache-state invariant holds after every completed public
operation — construction, `Get`, and `Set` (including the eviction pass a
`Set` triggers, and including a rejected `Set`, which leaves the state
unchanged): the key multisets of the entries map and the sizes map are
exactly the recency order, the recency order has no duplicates, and the
aggregate of the stored per-key sizes (`GetCacheSize`, the code's sum of
`sizes[k]` over the cached keys) is at most `maxsize`. -/
theorem C1_invariant_all_ops :
    (∀ n c0, AccessCache.NewAccessCache n = some c0 → AccessCache.Wf c0) ∧
    (∀ (c : AccessCache) (key : String) (t : ℚ),
      AccessCache.Wf c → AccessCache.Wf (c.Get key t).2.2) ∧
    (∀ (c : AccessCache) (key : String) (v : Value) (t : ℚ)
      (c' : AccessCache) (e : Option String),
      AccessCache.Wf c → c.Set key v t = some (c', e) → AccessCache.Wf c') := by
  refine ⟨?_, ?_, ?_⟩
  · intro n c0 h
    unfold AccessCache.NewAccessCache at h
    by_cases hn : n ≤ 0
    · rw [if_pos hn] at h; exact absurd h (by simp)
    · rw [if_neg hn] at h
      have hc := Option.some.inj h
      subst hc
      exact ⟨by simp, by simp [keysOf], by simp [keysOf],
        Nat.zero_le _⟩
  · intro c key t hwf
    exact AccessCache.wf_get key t hwf
  · intro c key v t c' e hwf h
    rcases AccessCache.Set_cases h with ⟨s, _, _, hc, _⟩ | ⟨s, _, _, _, hc⟩
    · subst hc; exact hwf
    · subst hc; exact AccessCache.wf_setResult hwf

/-- Witness for C1: the invariant theorem applied to a concrete
construction, a concrete `Get`, and a concrete successful `Set`. -/
theorem C1_invariant_all_ops_witness :
    (∀ c0, AccessCache.NewAccessCache 100 = some c0 → AccessCache.Wf c0) ∧
    AccessCache.Wf ((cW.Get "a" 1).2.2) ∧
    (∀ c', cW.Set "b" (.scalar .int) 1 = some (c', none) → AccessCache.Wf c') :=
  ⟨fun c0 h => C1_invariant_all_ops.1 100 c0 h,
   C1_invariant_all_ops.2.1 cW "a" 1 ⟨by decide, by decide, by decide, by decide⟩,
   fun c' h => C1_invariant_all_ops.2.2 cW "b" (.scalar .int) 1 c' none
     ⟨by decide, by decide, by decide, by decide⟩ h⟩

/-- C2: a `Set` whose estimated size reaches the cache maximum returns the
capacity-violation error and performs no state mutation at all: the result
state is literally the pre-state (hence entries, sizes, recency order,
`Count` and `GetCacheSize` are unchanged), paired with the error. -/
theorem C2_set_reject_no_mutation :
    ∀ (c : AccessCache) (key : String) (v : Value) (t : ℚ) (s : Nat),
      sizeof [v] = some s → c.maxsize ≤ s →
      c.Set key v t = some (c, some AccessCache.capacityError) := by
  intro c key v t s hs hge
  exact AccessCache.Set_eq_reject hs hge

/-- Witness for C2: an 8-byte `int` against capacity 8 is rejected and the
empty cache is returned unchanged. -/
theorem C2_set_reject_no_mutation_witness :
    cM8.Set "k" (.scalar .int) 2 = some (cM8, some AccessCache.capacityError) :=
  C2_set_reject_no_mutation cM8 "k" (.scalar .int) 2 8 rfl (by decide)

/-- C4: if `Get` finds the key, the key is promoted by removing its prior
occurrence from the recency order and appending it at the tail, so that
`GetLastViewedKey` of the post-state is that key. -/
theorem C4_get_hit_promotes :
    ∀ (c : AccessCache) (key : String) (t : ℚ),
      (c.Get key t).2.1 = true →
      AccessCache.GetLastViewedKey (c.Get key t).2.2 = key ∧
      ((c.Get key t).2.2).lastviewed = c.lastviewed.erase key ++ [key] := by
  intro c key t hok
  unfold AccessCache.Get at hok ⊢
  rcases hl : alookup c.cache key with _ | v
  · rw [hl] at hok; exact absurd hok (by simp)
  · constructor
    · refine AccessCache.getLastViewed_append _ (c.lastviewed.erase key) key ?_
      simp [hl, AccessCache.appendLastViewed_eq]
    · simp [hl, AccessCache.appendLastViewed_eq]

/-- Witness for C4: a hit on `"a"` in the one-entry cache. -/
theorem C4_get_hit_promotes_witness :
    AccessCache.GetLastViewedKey (cW.Get "a" 1).2.2 = "a" ∧
    ((cW.Get "a" 1).2.2).lastviewed = cW.lastviewed.erase "a" ++ ["a"] :=
  C4_get_hit_promotes cW "a" 1 (by decide)

/-- C9: constructing with capacity zero fails fatally (`none`, no cache is
produced — the `uint64` argument cannot be negative, so `size <= 0` means
exactly zero), and the value is never clamped or defaulted; any positive
capacity yields an empty cache: `Count = 0`, `GetCacheSize = 0`,
`GetLastViewedKey = ""` and an empty size table. -/
theorem C9_construct :
    AccessCache.NewAccessCache 0 = none ∧
    ∀ n, 0 < n → ∃ c0, AccessCache.NewAccessCache n = some c0 ∧
      c0.Count = 0 ∧ c0.GetCacheSize = 0 ∧ c0.GetLastViewedKey = "" ∧
      c0.GetItemSizes = [] := by
  constructor
  · rfl
  · intro n hn
    have h : AccessCache.NewAccessCache n = some
        { cache := [], sizes := [], lastviewed := [], maxsize := n,
          verbose := false, avgGet := 0, avgSet := 0, ctrGet := 0, ctrSet := 0 } := by
      unfold AccessCache.NewAccessCache
      rw [if_neg (by omega)]
    exact ⟨_, h, rfl, rfl, rfl, rfl⟩

/-- Witness for C9: capacity 5. -/
theorem C9_construct_witness :
    ∃ c0, AccessCache.NewAccessCache 5 = some c0 ∧
      c0.Count = 0 ∧ c0.GetCacheSize = 0 ∧ c0.GetLastViewedKey = "" ∧
      c0.GetItemSizes = [] :=
  C9_construct.2 5 (by decide)

/-- C10: the eviction pass terminates with a definite result from every
state: it ends only with the aggregate size within budget or the recency
order empty; it never lengthens the recency order; it is the identity as
soon as the size is within budget; and each iteration removes exactly the
head key from the entries map, the sizes map and the recency order, so the
number of cached entries strictly decreases. -/
theorem C10_eviction_terminates :
    ∀ c : AccessCache,
      (AccessCache.GetCacheSize (AccessCache.clearOutdatedItems c) ≤ c.maxsize ∨
        (AccessCache.clearOutdatedItems c).lastviewed = []) ∧
      ((AccessCache.clearOutdatedItems c).lastviewed.length ≤ c.lastviewed.length) ∧
      (AccessCache.GetCacheSize c ≤ c.maxsize → AccessCache.clearOutdatedItems c = c) ∧
      (∀ k rest, c.lastviewed = k :: rest → c.maxsize < AccessCache.GetCacheSize c →
        AccessCache.clearOutdatedItems c =
          AccessCache.clearOutdatedItems
            { c with cache := aerase c.cache k, sizes := aerase c.sizes k,
                     lastviewed := rest } ∧
        AccessCache.Count
          { c with cache := aerase c.cache k, sizes := aerase c.sizes k,
                   lastviewed := rest } < AccessCache.Count c) := by
  intro c
  refine ⟨?_, ?_, ?_, ?_⟩
  · have h := AccessCache.clearOutdatedLoop_exit c.maxsize c.lastviewed c.cache c.sizes
    rcases h with h | h
    · exact Or.inl (by simpa [AccessCache.clearOutdatedItems, AccessCache.GetCacheSize] using h)
    · exact Or.inr (by simpa [AccessCache.clearOutdatedItems] using h)
  · obtain ⟨n, hn, he⟩ :=
      AccessCache.clearOutdatedLoop_drop c.maxsize c.lastviewed c.cache c.sizes
    have : (AccessCache.clearOutdatedItems c).lastviewed = c.lastviewed.drop n := by
      simpa [AccessCache.clearOutdatedItems] using he
    rw [this, List.length_drop]
    omega
  · intro hle
    refine AccessCache.clearOutdatedItems_eq_self ?_
    have hng : ¬ c.maxsize < mapsSize c.cache c.sizes :=
      Nat.not_lt_of_le (by simpa [AccessCache.GetCacheSize] using hle)
    cases hlv : c.lastviewed with
    | nil => simp [AccessCache.clearOutdatedLoop]
    | cons k rest => simp [AccessCache.clearOutdatedLoop, hng]
  · intro k rest hlv hgt
    constructor
    · unfold AccessCache.clearOutdatedItems
      rw [hlv]
      have hg : c.maxsize < mapsSize c.cache c.sizes := by
        simpa [AccessCache.GetCacheSize] using hgt
      simp only [AccessCache.clearOutdatedLoop, if_pos hg]
    · simp [AccessCache.Count, hlv]

/-- Witness for C10: the identity case on a within-budget state, and one
eviction step on a concrete over-budget state. -/
theorem C10_eviction_terminates_witness :
    (AccessCache.clearOutdatedItems cW = cW) ∧
    (AccessCache.clearOutdatedItems cOver =
      AccessCache.clearOutdatedItems
        { cOver with cache := aerase cOver.cache "a", sizes := aerase cOver.sizes "a",
                     lastviewed := ["b"] } ∧
     AccessCache.Count
        { cOver with cache := aerase cOver.cache "a", sizes := aerase cOver.sizes "a",
                     lastviewed := ["b"] } < AccessCache.Count cOver) :=
  ⟨(C10_eviction_terminates cW).2.2.1 (by decide),
   (C10_eviction_terminates cOver).2.2.2 "a" ["b"] rfl (by decide)⟩

/-- C3: when a successful `Set` triggers evictions, the evicted keys are
exactly a prefix of the recency order as it stood right after the promotion
of the written key: the surviving order is `drop n` of that order, so each
evicted key was the head — the least-recently touched key — at the moment it
was removed, and the evicted keys are gone from the recency order and the
entries map.  In particular a single eviction (`n = 1`) removes exactly the
least-recently-used key. -/
theorem C3_evictions_take_lru_prefix :
    ∀ (c : AccessCache) (key : String) (v : Value) (t : ℚ) (c' : AccessCache),
      AccessCache.Wf c → c.Set key v t = some (c', none) →
      ∃ n, n ≤ (AccessCache.appendLastViewed c.lastviewed key).length ∧
        c'.lastviewed = (AccessCache.appendLastViewed c.lastviewed key).drop n ∧
        ∀ j ∈ (AccessCache.appendLastViewed c.lastviewed key).take n,
          j ∉ c'.lastviewed ∧ alookup c'.cache j = none := by
  intro c key v t c' hwf h
  rcases AccessCache.Set_cases h with ⟨s, _, _, _, habs⟩ | ⟨s, hs, hlt, _, hc⟩
  · exact absurd habs (by simp)
  · subst hc
    have hsync := AccessCache.syncT_insert key v s (AccessCache.wf_syncT hwf)
    obtain ⟨n, hn, hdrop⟩ := AccessCache.clearOutdatedLoop_drop c.maxsize
      (AccessCache.appendLastViewed c.lastviewed key)
      (ainsert c.cache key v) (ainsert c.sizes key s)
    have hres := AccessCache.clearOutdatedLoop_sync c.maxsize
      (AccessCache.appendLastViewed c.lastviewed key)
      (ainsert c.cache key v) (ainsert c.sizes key s) hsync
    have hlv : (AccessCache.setResult c key v s t).lastviewed =
        (AccessCache.appendLastViewed c.lastviewed key).drop n := by
      simpa [AccessCache.setResult, AccessCache.clearOutdatedItems] using hdrop
    refine ⟨n, hn, hlv, ?_⟩
    intro j hj
    have hnd : (AccessCache.appendLastViewed c.lastviewed key).Nodup :=
      AccessCache.appendLastViewed_nodup key hwf.1
    have hdisj : j ∉ (AccessCache.appendLastViewed c.lastviewed key).drop n := by
      have h2 := hnd
      rw [← List.take_append_drop n (AccessCache.appendLastViewed c.lastviewed key)]
        at h2
      exact (List.nodup_append.mp h2).2.2 hj
    constructor
    · rw [hlv]; exact hdisj
    · have hjk : j ∉ (AccessCache.setResult c key v s t).lastviewed := by
        rw [hlv]; exact hdisj
      have hperm : (keysOf (AccessCache.setResult c key v s t).cache).Perm
          (AccessCache.setResult c key v s t).lastviewed := by
        simpa [AccessCache.setResult, AccessCache.clearOutdatedItems] using hres.1.2.1
      exact alookup_eq_none_of_not_mem (fun hm => hjk (hperm.mem_iff.mp hm))

/-- Witness for C3: the successful `Set "b"` on the one-entry cache `cW`
(no eviction needed, so the prefix is empty). -/
theorem C3_evictions_take_lru_prefix_witness :
    ∃ n, n ≤ (AccessCache.appendLastViewed cW.lastviewed "b").length ∧
      (AccessCache.setResult cW "b" (.scalar .int) 8 1).lastviewed =
        (AccessCache.appendLastViewed cW.lastviewed "b").drop n ∧
      ∀ j ∈ (AccessCache.appendLastViewed cW.lastviewed "b").take n,
        j ∉ (AccessCache.setResult cW "b" (.scalar .int) 8 1).lastviewed ∧
        alookup (AccessCache.setResult cW "b" (.scalar .int) 8 1).cache j = none :=
  C3_evictions_take_lru_prefix cW "b" (.scalar .int) 1 _
    ⟨by decide, by decide, by decide, by decide⟩
    (AccessCache.Set_eq_some rfl (by decide))

/-- C5: a successful `Set key v` leaves `key` present afterwards — the entry
the same `Set` just wrote is never removed by the eviction pass it triggers
(the promoted key sits at the recency tail and its size is below the
maximum, so the loop stops before reaching it): the post-state maps `key`
to `v`, a `Get key` would find `v`, and `key` is the most-recent key. -/
theorem C5_set_success_key_present :
    ∀ (c : AccessCache) (key : String) (v : Value) (t : ℚ) (c' : AccessCache),
      AccessCache.Wf c → c.Set key v t = some (c', none) →
      alookup c'.cache key = some v ∧
      (∀ t2 : ℚ, (c'.Get key t2).1 = some v ∧ (c'.Get key t2).2.1 = true) ∧
      AccessCache.GetLastViewedKey c' = key := by
  intro c key v t c' hwf h
  rcases AccessCache.Set_cases h with ⟨s, _, _, _, habs⟩ | ⟨s, hs, hlt, _, hc⟩
  · exact absurd habs (by simp)
  · subst hc
    have hsync := AccessCache.syncT_insert key v s (AccessCache.wf_syncT hwf)
    have happ := AccessCache.appendLastViewed_eq c.lastviewed key
    have hsync2 : SyncT (c.lastviewed.erase key ++ [key])
        (ainsert c.cache key v) (ainsert c.sizes key s) := happ ▸ hsync
    have hlk : alookup (ainsert c.sizes key s) key = some s := by
      rw [alookup_ainsert]; simp
    have hlast := AccessCache.clearOutdatedLoop_last c.maxsize
      (c.lastviewed.erase key) key (ainsert c.cache key v) (ainsert c.sizes key s)
      s hsync2 hlk (Nat.le_of_lt hlt)
    rw [← happ] at hlast
    obtain ⟨⟨l', hl'⟩, hcache, _⟩ := hlast
    have hlookup : alookup (AccessCache.setResult c key v s t).cache key = some v := by
      have hv : alookup (ainsert c.cache key v) key = some v := by
        rw [alookup_ainsert]; simp
      have hsc : (AccessCache.setResult c key v s t).cache =
          (AccessCache.clearOutdatedLoop c.maxsize
            (AccessCache.appendLastViewed c.lastviewed key)
            (ainsert c.cache key v) (ainsert c.sizes key s)).2.1 := by
        simp [AccessCache.setResult, AccessCache.clearOutdatedItems]
      rw [hsc, hcache, hv]
    refine ⟨hlookup, ?_, ?_⟩
    · intro t2
      constructor
      · simp [AccessCache.Get, hlookup]
      · simp [AccessCache.Get, hlookup]
    · refine AccessCache.getLastViewed_append _ l' key ?_
      simpa [AccessCache.setResult, AccessCache.clearOutdatedItems] using hl'

/-- Witness for C5: the successful `Set "b"` on the one-entry cache `cW`. -/
theorem C5_set_success_key_present_witness :
    alookup (AccessCache.setResult cW "b" (.scalar .int) 8 1).cache "b" =
      some (.scalar .int) ∧
    (∀ t2 : ℚ,
      ((AccessCache.setResult cW "b" (.scalar .int) 8 1).Get "b" t2).1 =
        some (.scalar .int) ∧
      ((AccessCache.setResult cW "b" (.scalar .int) 8 1).Get "b" t2).2.1 = true) ∧
    AccessCache.GetLastViewedKey (AccessCache.setResult cW "b" (.scalar .int) 8 1) =
      "b" :=
  C5_set_success_key_present cW "b" (.scalar .int) 1 _
    ⟨by decide, by decide, by decide, by decide⟩
    (AccessCache.Set_eq_some rfl (by decide))

/-- C8 counterexample: a `Set` rejected by the capacity check returns
*before* the latency bookkeeping, so — contrary to the claim that every
`Set` call, including a rejected one, updates the rolling average and
increments the sample count — the returned state still has the old
`avgSet` and `ctrSet` (here 0 and 0), while the claimed update would have
produced `calcAvg 0 0 5 = 5000` and count 1. -/
theorem C8_reject_counterexample :
    cM8.Set "k" (.scalar .int) 5 = some (cM8, some AccessCache.capacityError) ∧
    cM8.avgSet = 0 ∧ cM8.ctrSet = 0 ∧
    AccessCache.calcAvg cM8.avgSet cM8.ctrSet 5 ≠ cM8.avgSet ∧
    cM8.ctrSet + 1 ≠ cM8.ctrSet := by
  refine ⟨AccessCache.Set_eq_reject rfl (by decide), rfl, rfl, ?_, by decide⟩
  unfold AccessCache.calcAvg cM8
  norm_num

/-- C8 (amended): every *successful* `Set` updates the rolling Set-latency
average as it completes — `newAvg = (oldAvg*oldCount + sample*1000) /
(oldCount+1)`, the sample being the call's duration converted to
milliseconds — and increments the sample count; a `Set` rejected by the
capacity check returns early and leaves both unchanged.  `Get` updates its
rolling average this way on every call, hit or miss. -/
theorem C8_latency_updates :
    ∀ (c : AccessCache) (key : String) (v : Value) (t : ℚ) (c' : AccessCache),
      (c.Set key v t = some (c', none) →
        c'.avgSet = AccessCache.calcAvg c.avgSet c.ctrSet t ∧
        c'.ctrSet = c.ctrSet + 1) ∧
      (∀ e, c.Set key v t = some (c', some e) →
        c'.avgSet = c.avgSet ∧ c'.ctrSet = c.ctrSet) ∧
      ((c.Get key t).2.2.avgGet = AccessCache.calcAvg c.avgGet c.ctrGet t ∧
       (c.Get key t).2.2.ctrGet = c.ctrGet + 1) ∧
      AccessCache.calcAvg c.avgSet c.ctrSet t =
        (c.avgSet * (c.ctrSet : ℚ) + t * 1000) / ((c.ctrSet : ℚ) + 1) := by
  intro c key v t c'
  refine ⟨?_, ?_, ?_, rfl⟩
  · intro h
    rcases AccessCache.Set_cases h with ⟨s, _, _, _, habs⟩ | ⟨s, _, _, _, hc⟩
    · exact absurd habs (by simp)
    · subst hc
      constructor
      · simp [AccessCache.setResult, AccessCache.clearOutdatedItems]
      · simp [AccessCache.setResult, AccessCache.clearOutdatedItems]
  · intro e h
    rcases AccessCache.Set_cases h with ⟨s, _, _, hc, _⟩ | ⟨s, _, _, habs, _⟩
    · subst hc; exact ⟨rfl, rfl⟩
    · exact absurd habs (by simp)
  · rcases hl : alookup c.cache key with _ | v2 <;>
      simp [AccessCache.Get, hl]

/-- Witness for C8 (amended): a concrete successful `Set`, a concrete
rejected `Set`, and a concrete `Get`. -/
theorem C8_latency_updates_witness :
    ((AccessCache.setResult cM8 "k" (.scalar .int32) 4 2).avgSet =
        AccessCache.calcAvg cM8.avgSet cM8.ctrSet 2 ∧
     (AccessCache.setResult cM8 "k" (.scalar .int32) 4 2).ctrSet =
        cM8.ctrSet + 1) ∧
    (cM8.avgSet = cM8.avgSet ∧ cM8.ctrSet = cM8.ctrSet) ∧
    ((cW.Get "a" 1).2.2.avgGet = AccessCache.calcAvg cW.avgGet cW.ctrGet 1 ∧
     (cW.Get "a" 1).2.2.ctrGet = cW.ctrGet + 1) :=
  ⟨(C8_latency_updates cM8 "k" (.scalar .int32) 2 _).1
      (AccessCache.Set_eq_some rfl (by decide)),
   (C8_latency_updates cM8 "k" (.scalar .int) 5 cM8).2.1
      AccessCache.capacityError (AccessCache.Set_eq_reject rfl (by decide)),
   (C8_latency_updates cW "a" (.scalar .int) 1 cW).2.2.1⟩

/-! ## Size-estimator lemmas

One unfolding equation per `Value` constructor, each proved by `rfl`
(splitting on the embedded-in-struct flag), so later proofs can rewrite a
single recursion level without unfolding the inner calls. -/

theorem sizeofInternal_scalar (t : GoType) (b : Bool) (d : Nat) :
    sizeofInternal (.scalar t) b d =
      if 1000 < d + 1 then none
      else some (if b then 0 else typeSize t) := by
  cases b <;> rfl

theorem sizeofInternal_str (s : String) (b : Bool) (d : Nat) :
    sizeofInternal (.str s) b d =
      if 1000 < d + 1 then none
      else some ((if b then 0 else stringSize) + s.length) := by
  cases b <;> rfl

theorem sizeofInternal_ptrNil (t : GoType) (b : Bool) (d : Nat) :
    sizeofInternal (.ptrNil t) b d =
      if 1000 < d + 1 then none
      else some (if b then 0 else 8) := by
  cases b <;> rfl

theorem sizeofInternal_ptrTo (w : Value) (b : Bool) (d : Nat) :
    sizeofInternal (.ptrTo w) b d =
      if 1000 < d + 1 then none
      else match sizeofInternal w false (d + 1) with
        | none => none
        | some s => some ((if b then 0 else 8) + s) := by
  cases b <;> rfl

theorem sizeofInternal_structV (fs : List Value) (b : Bool) (d : Nat) :
    sizeofInternal (.structV fs) b d =
      if 1000 < d + 1 then none
      else sumFields fs (d + 1) (if b then 0 else Value.tsizeL fs) := by
  cases b <;> rfl

theorem sizeofInternal_arrayV (t : GoType) (es : List Value) (b : Bool) (d : Nat) :
    sizeofInternal (.arrayV t es) b d =
      if 1000 < d + 1 then none
      else if isNativeType t then some (if b then 0 else es.length * typeSize t)
      else sumElems es (d + 1) 0 := by
  cases b <;> rfl

theorem sizeofInternal_sliceV (t : GoType) (es : List Value) (b : Bool) (d : Nat) :
    sizeofInternal (.sliceV t es) b d =
      if 1000 < d + 1 then none
      else if isNativeType t then
        some ((if b then 0 else sliceSize) + es.length * typeSize t)
      else sumElems es (d + 1) (if b then 0 else sliceSize) := by
  cases b <;> rfl

theorem sizeofInternal_mapNil (kt vt : GoType) (b : Bool) (d : Nat) :
    sizeofInternal (.mapNil kt vt) b d =
      if 1000 < d + 1 then none
      else some (if b then 0 else 8) := by
  cases b <;> rfl

theorem sizeofInternal_mapV (kt vt : GoType) (ps : List (Value × Value))
    (b : Bool) (d : Nat) :
    sizeofInternal (.mapV kt vt ps) b d =
      if 1000 < d + 1 then none
      else if isNativeType kt && isNativeType vt then
        some ((if b then 0 else 8) + (typeSize kt + typeSize vt) * ps.length)
      else sumPairs ps (d + 1) (if b then 0 else 8) := by
  cases b <;> rfl

theorem sumElems_forall2 {es : List Value} {ns : List Nat} {d : Nat}
    (h : List.Forall₂ (fun e n => sizeofInternal e false d = some n) es ns) :
    ∀ acc, sumElems es d acc = some (acc + ns.sum) := by
  induction h with
  | nil => intro acc; simp [sumElems]
  | @cons e n es2 ns2 h1 _ ih =>
    intro acc
    have := ih (acc + n)
    simp only [sumElems, h1, this, List.sum_cons]
    exact congrArg some (by omega)

/-- C6: at top level (not embedded in a struct), a fixed-length array of a
native (scalar) element type is estimated as element width times length
with no per-element recursion (that is what `typ.Size()` equals for an
array type in Go); an array of a non-native element type is estimated as
exactly the sum of the per-element recursive estimates — the code resets
the running size to 0 first, matching the fact that a Go array carries no
descriptor of its own, so the top-level header-overhead term is zero. -/
theorem C6_array_estimate :
    ∀ (t : GoType) (es : List Value) (d : Nat), d < 1000 →
      (isNativeType t = true →
        sizeofInternal (.arrayV t es) false d = some (typeSize t * es.length)) ∧
      (isNativeType t = false → ∀ ns : List Nat,
        List.Forall₂ (fun e n => sizeofInternal e false (d + 1) = some n) es ns →
        sizeofInternal (.arrayV t es) false d = some ns.sum) := by
  intro t es d hd
  have hg : ¬ 1000 < d + 1 := by omega
  constructor
  · intro hnat
    rw [sizeofInternal_arrayV, if_neg hg, if_pos hnat]
    exact congrArg some (by simp [Nat.mul_comm])
  · intro hnat ns h
    rw [sizeofInternal_arrayV, if_neg hg, if_neg (by simp [hnat])]
    simpa using sumElems_forall2 h 0

/-- Witness for C6: a two-element `int64` array (2 × 8 bytes, no
recursion), and a one-element `string` array (exactly the element's own
estimate, 16 + 2). -/
theorem C6_array_estimate_witness :
    sizeofInternal (.arrayV .int64 [.scalar .int64, .scalar .int64]) false 0 =
      some (typeSize .int64 * 2) ∧
    sizeofInternal (.arrayV .string [.str "ab"]) false 0 = some ([18].sum) :=
  ⟨(C6_array_estimate .int64 [.scalar .int64, .scalar .int64] 0 (by decide)).1 rfl,
   (C6_array_estimate .string [.str "ab"] 0 (by decide)).2 rfl [18]
     (List.Forall₂.cons rfl List.Forall₂.nil)⟩

/-- `Fits v d` says the estimator's recursion on `v`, started at depth `d`,
stays within the 1000-level depth guard: the node itself passes the guard
and every child fits at depth `d + 1`.  This is the structural reading of
"recursion depth does not exceed 1000 levels" for a value. -/
inductive Fits : Value → Nat → Prop where
  | scalar : ∀ (t : GoType) (d : Nat), d + 1 ≤ 1000 → Fits (.scalar t) d
  | str : ∀ (s : String) (d : Nat), d + 1 ≤ 1000 → Fits (.str s) d
  | ptrNil : ∀ (t : GoType) (d : Nat), d + 1 ≤ 1000 → Fits (.ptrNil t) d
  | ptrTo : ∀ (w : Value) (d : Nat), d + 1 ≤ 1000 → Fits w (d + 1) →
      Fits (.ptrTo w) d
  | structV : ∀ (fs : List Value) (d : Nat), d + 1 ≤ 1000 →
      (∀ f ∈ fs, Fits f (d + 1)) → Fits (.structV fs) d
  | arrayV : ∀ (t : GoType) (es : List Value) (d : Nat), d + 1 ≤ 1000 →
      (∀ e ∈ es, Fits e (d + 1)) → Fits (.arrayV t es) d
  | sliceV : ∀ (t : GoType) (es : List Value) (d : Nat), d + 1 ≤ 1000 →
      (∀ e ∈ es, Fits e (d + 1)) → Fits (.sliceV t es) d
  | mapNil : ∀ (kt vt : GoType) (d : Nat), d + 1 ≤ 1000 → Fits (.mapNil kt vt) d
  | mapV : ∀ (kt vt : GoType) (ps : List (Value × Value)) (d : Nat),
      d + 1 ≤ 1000 → (∀ p ∈ ps, Fits p.1 (d + 1)) →
      (∀ p ∈ ps, Fits p.2 (d + 1)) → Fits (.mapV kt vt ps) d

theorem sumFields_some {fs : List Value} {d : Nat}
    (h : ∀ f ∈ fs, ∃ n, sizeofInternal f true d = some n) :
    ∀ acc, ∃ m, sumFields fs d acc = some m := by
  induction fs with
  | nil => intro acc; exact ⟨acc, rfl⟩
  | cons f fs2 ih =>
    intro acc
    obtain ⟨n, hn⟩ := h f (by simp)
    obtain ⟨m, hm⟩ := ih (fun g hg => h g (by simp [hg])) (acc + n)
    exact ⟨m, by simp [sumFields, hn, hm]⟩

theorem sumElems_some {es : List Value} {d : Nat}
    (h : ∀ e ∈ es, ∃ n, sizeofInternal e false d = some n) :
    ∀ acc, ∃ m, sumElems es d acc = some m := by
  induction es with
  | nil => intro acc; exact ⟨acc, rfl⟩
  | cons e es2 ih =>
    intro acc
    obtain ⟨n, hn⟩ := h e (by simp)
    obtain ⟨m, hm⟩ := ih (fun g hg => h g (by simp [hg])) (acc + n)
    exact ⟨m, by simp [sumElems, hn, hm]⟩

theorem sumPairs_some {ps : List (Value × Value)} {d : Nat}
    (h : ∀ p ∈ ps, (∃ n, sizeofInternal p.1 false d = some n) ∧
      (∃ n, sizeofInternal p.2 false d = some n)) :
    ∀ acc, ∃ m, sumPairs ps d acc = some m := by
  induction ps with
  | nil => intro acc; exact ⟨acc, rfl⟩
  | cons p ps2 ih =>
    intro acc
    obtain ⟨⟨n1, hn1⟩, ⟨n2, hn2⟩⟩ := h p (by simp)
    obtain ⟨m, hm⟩ := ih (fun q hq => h q (by simp [hq])) (acc + (n1 + n2))
    cases p
    exact ⟨m, by simpa [sumPairs, hn1, hn2] using hm⟩

theorem fits_some {v : Value} {d : Nat} (h : Fits v d) :
    ∀ b, ∃ n, sizeofInternal v b d = some n := by
  induction h with
  | scalar t d hd =>
    intro b
    rw [sizeofInternal_scalar, if_neg (Nat.not_lt.mpr hd)]
    exact ⟨_, rfl⟩
  | str s d hd =>
    intro b
    rw [sizeofInternal_str, if_neg (Nat.not_lt.mpr hd)]
    exact ⟨_, rfl⟩
  | ptrNil t d hd =>
    intro b
    rw [sizeofInternal_ptrNil, if_neg (Nat.not_lt.mpr hd)]
    exact ⟨_, rfl⟩
  | ptrTo w d hd _ ihw =>
    intro b
    obtain ⟨n, hn⟩ := ihw false
    rw [sizeofInternal_ptrTo, if_neg (Nat.not_lt.mpr hd), hn]
    exact ⟨_, rfl⟩
  | structV fs d hd _ ihf =>
    intro b
    rw [sizeofInternal_structV, if_neg (Nat.not_lt.mpr hd)]
    exact sumFields_some (fun f hf => ihf f hf true) _
  | arrayV t es d hd _ ihe =>
    intro b
    rw [sizeofInternal_arrayV, if_neg (Nat.not_lt.mpr hd)]
    by_cases hnat : isNativeType t
    · rw [if_pos hnat]; exact ⟨_, rfl⟩
    · rw [if_neg hnat]
      exact sumElems_some (fun e he => ihe e he false) _
  | sliceV t es d hd _ ihe =>
    intro b
    rw [sizeofInternal_sliceV, if_neg (Nat.not_lt.mpr hd)]
    by_cases hnat : isNativeType t
    · rw [if_pos hnat]; exact ⟨_, rfl⟩
    · rw [if_neg hnat]
      exact sumElems_some (fun e he => ihe e he false) _
  | mapNil kt vt d hd =>
    intro b
    rw [sizeofInternal_mapNil, if_neg (Nat.not_lt.mpr hd)]
    exact ⟨_, rfl⟩
  | mapV kt vt ps d hd _ _ ihp1 ihp2 =>
    intro b
    rw [sizeofInternal_mapV, if_neg (Nat.not_lt.mpr hd)]
    by_cases hnat : isNativeType kt && isNativeType vt
    · rw [if_pos hnat]; exact ⟨_, rfl⟩
    · rw [if_neg hnat]
      exact sumPairs_some (fun p hp => ⟨ihp1 p hp false, ihp2 p hp false⟩) _

/-- A pointer chain of the given depth ending in an `int64`. -/
def deepPtr : Nat → Value
  | 0 => .scalar .int64
  | n + 1 => .ptrTo (deepPtr n)

theorem deepPtr_none : ∀ (n d : Nat), 1000 ≤ n + d →
    sizeofInternal (deepPtr n) false d = none := by
  intro n
  induction n with
  | zero =>
    intro d hd
    show sizeofInternal (.scalar .int64) false d = none
    rw [sizeofInternal_scalar, if_pos (show 1000 < d + 1 by omega)]
  | succ n ih =>
    intro d hd
    show sizeofInternal (.ptrTo (deepPtr n)) false d = none
    rw [sizeofInternal_ptrTo]
    by_cases hg : 1000 < d + 1
    · rw [if_pos hg]
    · rw [if_neg hg, ih (d + 1) (by omega)]

theorem deepPtr_fits : ∀ (n d : Nat), n + d ≤ 999 → Fits (deepPtr n) d := by
  intro n
  induction n with
  | zero => intro d hd; exact Fits.scalar _ d (by omega)
  | succ n ih =>
    intro d hd
    exact Fits.ptrTo _ d (by omega) (ih (d + 1) (by omega))

/-- C7: the estimator always terminates with a definite outcome.  At any
depth at or past the guard it fails fatally (`none` models the panic);
whenever the recursion on the input stays within 1000 levels (`Fits`) it
returns an estimate; and on a pathologically deep structure — a pointer
chain 1000 deep — the whole `sizeof` fails fatally rather than looping,
while the 999-deep chain still gets an estimate. -/
theorem C7_estimator_terminates :
    (∀ (v : Value) (b : Bool) (d : Nat), 1000 ≤ d →
      sizeofInternal v b d = none) ∧
    (∀ (v : Value) (b : Bool) (d : Nat), Fits v d →
      ∃ n, sizeofInternal v b d = some n) ∧
    sizeof [deepPtr 1000] = none ∧
    (∃ n, sizeof [deepPtr 999] = some n) := by
  refine ⟨?_, ?_, ?_, ?_⟩
  · intro v b d hd
    have hg : 1000 < d + 1 := by omega
    cases v with
    | scalar t => rw [sizeofInternal_scalar, if_pos hg]
    | str s => rw [sizeofInternal_str, if_pos hg]
    | ptrNil t => rw [sizeofInternal_ptrNil, if_pos hg]
    | ptrTo w => rw [sizeofInternal_ptrTo, if_pos hg]
    | structV fs => rw [sizeofInternal_structV, if_pos hg]
    | arrayV t es => rw [sizeofInternal_arrayV, if_pos hg]
    | sliceV t es => rw [sizeofInternal_sliceV, if_pos hg]
    | mapNil kt vt => rw [sizeofInternal_mapNil, if_pos hg]
    | mapV kt vt ps => rw [sizeofInternal_mapV, if_pos hg]
  · intro v b d h
    exact fits_some h b
  · have hn := deepPtr_none 1000 0 (by omega)
    simp [sizeof, hn]
  · obtain ⟨n, hn⟩ := fits_some (deepPtr_fits 999 0 (by omega)) false
    exact ⟨n + 0, by simp [sizeof, hn]⟩

/-- Witness for C7: the guard fires at depth 1000 on a flat value, and a
shallow value at depth 0 gets an estimate. -/
theorem C7_estimator_terminates_witness :
    sizeofInternal (.scalar .int) false 1000 = none ∧
    (∃ n, sizeofInternal (.str "hi") false 0 = some n) :=
  ⟨C7_estimator_terminates.1 (.scalar .int) false 1000 (by decide),
   C7_estimator_terminates.2.1 (.str "hi") false 0 (Fits.str "hi" 0 (by decide))⟩
